import Mathlib

/-!
Verification of the LAL interpreter (DavidSpickett/ExpressionCompiler).

The definitions below are shallow embeddings of the Python source:
`calls.py` for the call classes (symbol resolver, cond/if/let/defun,
user-function calls, flatten) and `main.py` for the parser and source
normaliser.  The explicit-stack evaluator of the newer front end is not
present under src/ (only its tests and the spec describe it); the one
definition modelled from the spec is marked as such in its doc comment.

Python values are modelled by the inductive `Obj`:
raw tokens and quoted-symbol results (plain Python `str`) are `Obj.sym`,
string literals (`StringVar` in calls.py) are `Obj.str`, `None` is
`Obj.none`, tuples/lists are `Obj.tuple`, the class objects installed by
`defun` are `Obj.fn`, and unevaluated Call nodes are `Obj.call`.
Scopes (Python dicts) are association lists where a later write shadows
an earlier one; `scopeGet` looks a Python string up among the keys, which
matches Python dict lookup for the string keys the resolver uses.
-/


/-- The universe of runtime objects of the interpreter. -/
inductive Obj where
  | int (n : Int)
  | str (s : String)
  | sym (s : String)
  | bool (b : Bool)
  | none
  | tuple (xs : List Obj)
  | fn (name : Obj) (argNames : List Obj) (variadic : Bool) (numArgs : Nat)
      (exactArity : Bool) (body : Obj) (captures : List (Obj × Obj))
  | call (head : String) (args : List Obj)

/-- A Python dict used as a scope: insertion-ordered key/value pairs,
with the most recent write first (first match wins on lookup). -/
abbrev Scope := List (Obj × Obj)

/-- Write `scope[k] = v` (a later write shadows an earlier one). -/
def scopeSet (s : Scope) (k v : Obj) : Scope := (k, v) :: s

/-- Dict lookup with a Python `str` key.  Only `Obj.sym` keys (plain
Python strings) can match a string key, as in Python dict lookup. -/
def scopeGet (s : Scope) (name : String) : Option Obj :=
  match s with
  | [] => Option.none
  | (Obj.sym k, v) :: t => if k = name then some v else scopeGet t name
  | _ :: t => scopeGet t name

/-- Value of a list of ASCII decimal digits; fails on a non-digit or on
an empty list, as `int()` does. -/
def decDigits? (cs : List Char) : Option Nat :=
  match cs with
  | [] => Option.none
  | _ => cs.foldl
      (fun acc c => acc.bind fun n =>
        if c.isDigit then some (n * 10 + (c.toNat - '0'.toNat)) else Option.none)
      (some 0)

/-- Python `int(arg)` on an argument token: an optional sign followed by
decimal digits (the tokens the parser produces contain no whitespace). -/
def pyInt? (s : String) : Option Int :=
  match s.data with
  | '+' :: rest => (decDigits? rest).map fun n => (n : Int)
  | '-' :: rest => (decDigits? rest).map fun n => -(n : Int)
  | cs => (decDigits? cs).map fun n => (n : Int)

/-- Python `s.startswith(c)` for a one-character prefix. -/
def startsWithChar (s : String) (c : Char) : Bool :=
  match s.data with
  | d :: _ => d = c
  | [] => false

/-- Python `s[n:]`. -/
def pyDrop (s : String) (n : Nat) : String := ⟨s.data.drop n⟩

/-- The message of the unknown-symbol error raised by `lookup_var`. -/
def unknownSymbolMsg (name callRepr : String) : String :=
  "Reference to unknown symbol \"" ++ name ++ "\" in \"" ++ callRepr ++ "\"."

/-- calls.py `lookup_var`: resolves one raw argument.  String literals
(`StringVar`) and anything already evaluated pass through unchanged; a
leading quote escapes the remainder as a literal; an integer token
becomes an `Int`; otherwise the token is a name (a leading `*` of a
longer token marks list expansion) looked up in the local scope first,
then the global scope.  `current_call` is the printed form of the
enclosing call, used only in the error message. -/
def lookup_var (scope global_scope : Scope) (arg : Obj) (current_call : String) :
    Except String (Bool × Obj) :=
  match arg with
  | Obj.sym s =>
    if startsWithChar s '\x27' then Except.ok (false, Obj.sym (pyDrop s 1))
    else
      match pyInt? s with
      | some n => Except.ok (false, Obj.int n)
      | Option.none =>
        let expand := startsWithChar s '*' && decide (s.length > 1)
        let name := if expand then pyDrop s 1 else s
        match scopeGet scope name with
        | some v => Except.ok (expand, v)
        | Option.none =>
          match scopeGet global_scope name with
          | some v => Except.ok (expand, v)
          | Option.none => Except.error (unknownSymbolMsg name current_call)
  | v => Except.ok (false, v)

/-- Python truthiness `bool(x)` for the runtime objects the interpreter
passes around: zero, `None`, `False`, the empty string (`StringVar`
defines `__len__`) and the empty tuple are falsy; class objects and call
instances are truthy. -/
def truthy : Obj → Bool
  | Obj.int n => n != 0
  | Obj.str s => s.length != 0
  | Obj.sym s => s.length != 0
  | Obj.bool b => b
  | Obj.none => false
  | Obj.tuple xs => !xs.isEmpty
  | Obj.fn .. => true
  | Obj.call .. => true

namespace CondCall

/-- The elements of `args` at even indices (`args[0::2]`). -/
def evens : List Obj → List Obj
  | [] => []
  | [a] => [a]
  | a :: _ :: t => a :: evens t

/-- The elements of `args` at odd indices (`args[1::2]`). -/
def odds : List Obj → List Obj
  | [] => []
  | [_] => []
  | _ :: b :: t => b :: odds t

/-- calls.py `CondCall.sort_args`: move all conditions to the front,
preserving relative order (`c1, a1, c2, a2` becomes `c1, c2, a1, a2`). -/
def sort_args (args : List Obj) : List Obj := evens args ++ odds args

/-- The scan of calls.py `CondCall.prepare`: `for i in range(mid)`, the
first truthy condition keeps only its action after the conditions. -/
def prepLoop (args : List Obj) (mid i : Nat) : List Obj :=
  if i < mid then
    if truthy (args.getD i Obj.none) then
      args.take mid ++ [args.getD (mid + i) Obj.none]
    else prepLoop args mid (i + 1)
  else args.take mid
termination_by mid - i

/-- calls.py `CondCall.prepare` (the scope is returned unchanged). -/
def prepare (args : List Obj) : List Obj :=
  prepLoop args (args.length / 2) 0

/-- calls.py `CondCall.apply`: `len(args) > len(self.args) / 2` (the
Python comparison is against a float; for the argument counts involved
it is exactly `selfArgsLen < 2 * args.length`) returns the last element,
otherwise the method falls through and returns `None`. -/
def apply (selfArgsLen : Nat) (args : List Obj) : Obj :=
  if selfArgsLen < 2 * args.length then args.getLastD Obj.none else Obj.none

end CondCall

/-- The source-order argument list `c1, a1, c2, a2, ...` of a cond call
built from its condition list and its action list. -/
def interleave : List Obj → List Obj → List Obj
  | c :: cs, a :: asr => c :: a :: interleave cs asr
  | _, _ => []

namespace IfCall

/-- calls.py `IfCall.prepare`: keep the condition and only the branch
selected by its truthiness; with a falsy condition and no else branch
only the condition remains. -/
def prepare (args : List Obj) : List Obj :=
  let c := args.getD 0 Obj.none
  if truthy c then [c, args.getD 1 Obj.none]
  else if args.length = 3 then [c, args.getD 2 Obj.none]
  else [c]

/-- calls.py `IfCall.apply`: the evaluated branch if one survived
`prepare`, otherwise `None`. -/
def apply (args : List Obj) : Obj :=
  if 1 < args.length then args.getLastD Obj.none else Obj.none

end IfCall

/-- The key conversion Python dict writes perform in this code base: a
`StringVar` name is replaced by its underlying string (`name.value`);
every other key object is used as it is. -/
def pyStrKey : Obj → Obj
  | Obj.str s => Obj.sym s
  | k => k

namespace DefineFunctionCall

/-- calls.py `DefineFunctionCall.prepare`: pop the body off the argument
list and stash it, unevaluated, on the call (`self.body = args.pop()`),
precisely so that a defun sitting in a branch that is never executed
does not define anything. -/
def prepare (args : List Obj) : List Obj × Obj :=
  (args.dropLast, args.getLastD Obj.none)

/-- calls.py `DefineFunctionCall.apply`: build the user-function class
(`UserCall_<name>`) carrying the stashed body, still unevaluated, and
install it in the global scope under the name (a `StringVar` name is
converted to its string).  Returns the updated global scope and the
class object, which is also the return value of the defun. -/
def apply (variadic : Bool) (body : Obj) (captures : List (Obj × Obj))
    (global_scope : Scope) (args : List Obj) : Scope × Obj :=
  let name := pyStrKey (args.getD 0 Obj.none)
  let rest := args.drop 1
  let f := Obj.fn name rest variadic
    (if variadic then rest.length - 1 else rest.length) (!variadic) body captures
  (scopeSet global_scope name f, f)

end DefineFunctionCall

namespace BaseUserCall

/-- Python `dict.update`: write every entry in order into the dict. -/
def updateScope (s : Scope) (entries : List (Obj × Obj)) : Scope :=
  entries.foldl (fun acc e => scopeSet acc e.1 e.2) s

/-- The arity message raised through `validate_args` when a declared
parameter has no corresponding argument (`IndexError` branch of the
binding loop of calls.py `BaseUserCall.prepare`). -/
def arityMsg (exactArity : Bool) (numArgs : Nat) (fname : String)
    (got : Nat) : String :=
  "Expected " ++ (if exactArity then "" else "at least ") ++ toString numArgs
    ++ " argument" ++ (if numArgs != 1 then "s" else "") ++ " for function \""
    ++ fname ++ "\", got " ++ toString got ++ "."

/-- `self.arg_names[idx] == "*"` for a parameter-name object. -/
def isStarName : Obj → Bool
  | Obj.sym s => s == "*"
  | _ => false

/-- The binding loop of calls.py `BaseUserCall.prepare`: walk the
declared parameter names; at `*` bind the remaining arguments as a
tuple and stop; otherwise bind the i-th name to the i-th argument, and
fail with the arity message when the arguments run out. -/
def bindLoop (exactArity : Bool) (numArgs : Nat) (fname : String)
    (origLen : Nat) :
    Scope → List Obj → List Obj → Except String Scope
  | scope, [], _ => Except.ok scope
  | scope, an :: ans, rem =>
    if isStarName an then
      Except.ok (scopeSet scope (Obj.sym "*") (Obj.tuple rem))
    else
      match rem with
      | a :: rest =>
        bindLoop exactArity numArgs fname origLen
          (scopeSet scope an a) ans rest
      | [] => Except.error (arityMsg exactArity numArgs fname origLen)

/-- calls.py `BaseUserCall.prepare`: start from an empty dict (`scope =
dict()` — the caller's scope is received but never read), add the
lambda captures, pre-bind `*` to the empty tuple for variadics, bind
the parameters, and append a copy of the stored body to the argument
list so the evaluator runs it next in the new scope. -/
def prepare (argNames : List Obj) (variadic : Bool) (numArgs : Nat)
    (exactArity : Bool) (fname : String) (captures : List (Obj × Obj))
    (body : Obj) (scope : Scope) (args : List Obj) :
    Except String (List Obj × Scope) :=
  let fresh : Scope := []
  let withCaps := updateScope fresh captures
  let withStar :=
    if variadic then scopeSet withCaps (Obj.sym "*") (Obj.tuple []) else withCaps
  match bindLoop exactArity numArgs fname args.length withStar argNames args with
  | Except.ok sc => Except.ok (args ++ [body], sc)
  | Except.error e => Except.error e

end BaseUserCall

/-- `pairs(it)` of calls.py, matched iteration: consecutive (name,
value) pairs.  `let` validates an odd total argument count before
`prepare` runs, so the list it pairs (the arguments without the body)
always has even length; the generator would raise `IndexError` on a
stray leftover element, which therefore cannot happen here. -/
def pairList : List Obj → List (Obj × Obj)
  | a :: b :: t => (a, b) :: pairList t
  | _ => []

/-!
To state that `let` cannot mutate the caller's scope we model Python
dict identity explicitly for this form: a `Store` is the collection of
live dicts, a scope is named by its index, `copy(scope)` allocates a
fresh dict with the same contents, and `scope[k] = v` mutates one dict
in place.
-/

/-- The live Python dicts; a scope reference is an index into it. -/
abbrev Store := List Scope

/-- Dereference a scope. -/
def storeGet (st : Store) (r : Nat) : Scope := st.getD r []

/-- In-place dict write `st[r][k] = v`. -/
def storeWrite (st : Store) (r : Nat) (k v : Obj) : Store :=
  st.set r (scopeSet (storeGet st r) k v)

/-- `copy(scope)`: allocate a fresh dict with the same contents and
return its reference. -/
def storeCopy (st : Store) (r : Nat) : Store × Nat :=
  (st ++ [storeGet st r], st.length)

namespace LetCall

/-- calls.py `LetCall.prepare`: copy the current local scope (`scope =
copy(scope)` — the inner dict is fresh, the caller's dict is never
written), then bind each already-evaluated (name, value) pair in the
copy, converting a `StringVar` name to its string; the argument list is
returned unchanged, and the copy becomes the scope the body runs in. -/
def prepare (st : Store) (r : Nat) (args : List Obj) : Store × Nat × List Obj :=
  let c := storeCopy st r
  let st2 := (pairList args.dropLast).foldl
    (fun acc kv => storeWrite acc c.2 (pyStrKey kv.1) kv.2) c.1
  (st2, c.2, args)

end LetCall

/-- Outcome of `FlattenCall.apply`.  `divergent` marks the inputs on
which the Python recursion never terminates: a non-empty plain Python
string is iterable and each of its characters is again a non-empty
iterable string, so `_flatten` recurses without bound (`RecursionError`
at runtime).  Plain strings are raw tokens / quoted-symbol results, not
part of the spec's value model, and the claim never reaches this case. -/
inductive FlattenResult where
  | ok (xs : List Obj)
  | err (msg : String)
  | divergent

/-- The element loop of `_flatten` in calls.py `FlattenCall.apply`:
`StringVar` elements are appended whole; iterable elements (tuples, and
plain Python strings) are recursed into; everything else is appended. -/
def flattenElems : List Obj → Option (List Obj)
  | [] => some []
  | Obj.str s :: t => (flattenElems t).map fun r => Obj.str s :: r
  | Obj.tuple xs :: t => do
      let a ← flattenElems xs
      let b ← flattenElems t
      pure (a ++ b)
  | Obj.sym s :: t =>
      if s.length = 0 then flattenElems t else Option.none
  | x :: t => (flattenElems t).map fun r => x :: r

/-- calls.py `FlattenCall.apply`: iterating a `StringVar` yields its
characters as one-character `StringVar`s (via `__getitem__`), which the
loop appends whole; a tuple is flattened recursively; a non-iterable
raises `TypeError`, caught and re-raised as the flatten-not-called-with-
a-list error carrying the printed call. -/
def flattenApply (selfRepr : String) (ls : Obj) : FlattenResult :=
  match ls with
  | Obj.str s =>
    FlattenResult.ok (s.data.map fun c => Obj.str (String.singleton c))
  | Obj.tuple xs =>
    match flattenElems xs with
    | some r => FlattenResult.ok r
    | Option.none => FlattenResult.divergent
  | Obj.sym s =>
    if s.length = 0 then FlattenResult.ok [] else FlattenResult.divergent
  | _ =>
    FlattenResult.err ("Flatten \"" ++ selfRepr ++ "\" not called with a list.")

mutual

/-- Membership in the spec's value universe: integers, string literals,
booleans, Unit, lists of values, and function references — no raw
tokens and no unevaluated call nodes. -/
def isValue : Obj → Bool
  | Obj.int _ => true
  | Obj.str _ => true
  | Obj.bool _ => true
  | Obj.none => true
  | Obj.tuple xs => isValueList xs
  | Obj.fn .. => true
  | Obj.sym _ => false
  | Obj.call .. => false

/-- Every element is a spec value. -/
def isValueList : List Obj → Bool
  | [] => true
  | x :: t => isValue x && isValueList t

end

mutual

/-- Stated from the spec for comparison: the flat list of the non-list
elements of a value, in order, string elements kept whole. -/
def specFlatten : Obj → List Obj
  | Obj.tuple xs => specFlattenList xs
  | v => [v]

/-- Stated from the spec for comparison: flattening of a list of
values, element by element, in order. -/
def specFlattenList : List Obj → List Obj
  | [] => []
  | x :: t => specFlatten x ++ specFlattenList t

end

/-- Argument-node trees for nested additions: an integer literal or a
`+` call with two argument nodes — the shape of the deep chains
`(+ (+ ... (+ 1 2) ...) k)` of the claim. -/
inductive PExpr where
  | num (n : Int)
  | plus (a b : PExpr)

/-- Number of nodes of an argument tree. -/
def pexprSize : PExpr → Nat
  | PExpr.num _ => 1
  | PExpr.plus a b => 1 + pexprSize a + pexprSize b

/-- One evaluator frame: the already-evaluated arguments of the paused
call and its pending argument nodes (spec 4.6: `(current_call,
arg_list, arg_idx, parent_scope_snapshot)`; `+` needs no scope). -/
structure PFrame where
  done : List Int
  todo : List PExpr

/-- Total size of the pending argument nodes of one frame. -/
def frameSize (f : PFrame) : Nat := (f.todo.map pexprSize).sum

/-- Total size of the pending argument nodes of the whole stack. -/
def stackSize (st : List PFrame) : Nat := (st.map frameSize).sum

/-- Modelled from the spec: the explicit-stack evaluator `execute` of
the newer front end is not under src/ (only tests.py and spec 4.6
describe it).  Per spec 4.6, on a Call argument the evaluator pushes
the current frame and pivots to the child; on a constant it stores the
value and advances; when a frame's arguments are exhausted it applies
the form (`+` is `reduce(operator.add, args)`, the sum of the evaluated
arguments; the bottom sentinel frame holds the single result) and
places the result in the parent frame.  Every step is a constant amount
of work followed by a tail call on the new machine state, so evaluation
does not recurse on the host for nested arguments; only the explicit
frame stack grows. -/
def machineRun : List PFrame → Option Int
  | [] => Option.none
  | ⟨done, []⟩ :: rest =>
    match rest with
    | [] => some done.sum
    | ⟨d2, t2⟩ :: r2 => machineRun (⟨d2 ++ [done.sum], t2⟩ :: r2)
  | ⟨done, PExpr.num n :: t⟩ :: rest => machineRun (⟨done ++ [n], t⟩ :: rest)
  | ⟨done, PExpr.plus a b :: t⟩ :: rest =>
    machineRun (⟨[], [a, b]⟩ :: ⟨done, t⟩ :: rest)
termination_by st => 2 * stackSize st + st.length
decreasing_by
all_goals simp [stackSize, frameSize, pexprSize]
all_goals omega

/-- Modelled from the spec: `execute(call, local, globals)` starts from
the sentinel bottom frame holding the top-level call and iterates. -/
def machineEval (e : PExpr) : Option Int := machineRun [⟨[], [e]⟩]

/-- The mathematical value of a nested-addition tree. -/
def pdenote : PExpr → Int
  | PExpr.num n => n
  | PExpr.plus a b => pdenote a + pdenote b

/-- The nested-addition chain of depth `d`:
`chainExpr 0 = (+ 1 2)`, `chainExpr (d+1) = (+ (chainExpr d) (d+3))`. -/
def chainExpr : Nat → PExpr
  | 0 => PExpr.plus (PExpr.num 1) (PExpr.num 2)
  | d + 1 => PExpr.plus (chainExpr d) (PExpr.num (d + 3))

/-- The sum of the chain of depth `d`, stated independently of the
evaluator. -/
def chainSum : Nat → Int
  | 0 => 3
  | d + 1 => chainSum d + (d + 3)

/-- The characters of Python `string.whitespace` (also the characters
the `\s` class matches on this ASCII source). -/
def pySpace (c : Char) : Bool :=
  c == ' ' || c == '\t' || c == '\n' || c == '\r' || c == '\x0b' || c == '\x0c'

/-- The list left after a comment: everything up to and including the
next newline is consumed (`re.sub(r"#.*(\n)?", "", ...)` — `.` does not
match the newline; the optional group consumes it). -/
def afterComment (cs : List Char) : List Char :=
  match cs.dropWhile (fun d => d != '\n') with
  | '\n' :: r => r
  | r => r

/-- First pass of main.py `normalise`: remove `#` comments — applied to
the raw text, before (and regardless of) any string literal. -/
def stripComments : List Char → List Char
  | [] => []
  | c :: cs =>
    if c = '#' then stripComments (afterComment cs)
    else c :: stripComments cs
termination_by l => l.length
decreasing_by
· have h9 : (afterComment cs).length ≤ cs.length := by
    unfold afterComment
    have h := (@List.dropWhile_sublist Char cs (fun d => d != '\n')).length_le
    cases hd : cs.dropWhile (fun d => d != '\n') with
    | nil => simp
    | cons d r =>
      rw [hd] at h
      cases hdn : d == '\n' with
      | true =>
        have hde : d = '\n' := by simpa using hdn
        subst hde
        simp at h ⊢
        omega
      | false =>
        have hde : ¬ d = '\n' := by simpa using hdn
        simp [hde] at h ⊢
        omega
  simp
  omega
· simp

/-- Second pass of main.py `normalise`: collapse every run of
whitespace to a single space (`re.sub(r"\s+", " ", ...)`). -/
def collapseWs : List Char → List Char
  | [] => []
  | c :: cs =>
    if pySpace c then ' ' :: collapseWs (cs.dropWhile pySpace)
    else c :: collapseWs cs
termination_by l => l.length
decreasing_by
· have := (@List.dropWhile_sublist Char cs pySpace).length_le
  simp
  omega
· simp

/-- Does the list start with a parenthesis? -/
def bracketHead : List Char → Bool
  | d :: _ => d == '(' || d == ')'
  | [] => false

/-- Third pass of main.py `normalise`: remove whitespace adjacent to a
parenthesis (`re.sub(r"\s*([\(\)])\s*", r"\g<1>", ...)`): at a
parenthesis the following run of whitespace is dropped; at a whitespace
run whose first non-space character is a parenthesis, the run is
replaced by that parenthesis and its trailing whitespace is dropped;
other whitespace stays (the pattern needs a parenthesis to match). -/
def rbs : List Char → List Char
  | [] => []
  | c :: cs =>
    if c = '(' ∨ c = ')' then c :: rbs (cs.dropWhile pySpace)
    else if h : pySpace c = true ∧ bracketHead (cs.dropWhile pySpace) = true then
      (cs.dropWhile pySpace).headD ' '
        :: rbs ((cs.dropWhile pySpace).tail.dropWhile pySpace)
    else c :: rbs cs
termination_by l => l.length
decreasing_by
· have := (@List.dropWhile_sublist Char cs pySpace).length_le
  simp
  omega
· have h1 := (@List.dropWhile_sublist Char cs pySpace).length_le
  have h2 := (@List.dropWhile_sublist Char (cs.dropWhile pySpace).tail pySpace).length_le
  have h3 : (cs.dropWhile pySpace) ≠ [] := by
    intro hc
    rw [hc] at h
    simp [bracketHead] at h
  have h4 : (cs.dropWhile pySpace).tail.length < (cs.dropWhile pySpace).length := by
    cases hc : cs.dropWhile pySpace with
    | nil => exact absurd hc h3
    | cons d ds => simp
  simp
  omega
· simp

/-- main.py `normalise`: comments stripped, whitespace runs collapsed,
then whitespace adjacent to parentheses removed — three textual passes
over the whole source, with no notion of string literals. -/
def normalise (src : List Char) : List Char :=
  rbs (collapseWs (stripComments src))

/-- A character that none of the normalisation passes touches: not
whitespace, not `#`, not a parenthesis (a double quote qualifies). -/
def isPlain (c : Char) : Bool :=
  !pySpace c && c != '#' && c != '(' && c != ')'

/-- A parse part of main.py `process_call`: a raw token string, or the
Call object built by `make_call` from the collected parts of a
parenthesised group (`make_call` only decides which class to
instantiate; the parts are kept as they were collected). -/
inductive PTok where
  | sym (s : String)
  | call (parts : List PTok)

mutual

/-- Python `str()` of a parse part, as interpolated by the error
message format: a token string is itself; a Call object prints through
`Call.__repr__` as `(name arg1 arg2 ...)` with `repr` of each argument. -/
def tokStr : PTok → String
  | PTok.sym s => s
  | PTok.call ps => callRepr ps

/-- `Call.__repr__` of main.py over the collected parts. -/
def callRepr : List PTok → String
  | [] => "()"
  | h :: t =>
    "(" ++ tokStr h ++ (if t.isEmpty then "" else " ") ++ argsJoin t ++ ")"

/-- `" ".join(map(repr, args))`. -/
def argsJoin : List PTok → String
  | [] => ""
  | [x] => tokArgRepr x
  | x :: y :: t => tokArgRepr x ++ " " ++ argsJoin (y :: t)

/-- Python `repr()` of one argument: a token string shows with quote
marks, a Call object shows through its `__repr__`. -/
def tokArgRepr : PTok → String
  | PTok.sym s => "\x27" ++ s ++ "\x27"
  | PTok.call ps => callRepr ps

end

/-- The continue-condition of main.py `get_symbol` outside a string
literal: not a parenthesis and not whitespace. -/
def symPred (c : Char) : Bool := !(c == '(' || c == ')' || pySpace c)

/-- An ordinary token character: anything `get_symbol` keeps reading
that also does not open a string literal. -/
def isTokChar (c : Char) : Bool :=
  !(c == '(' || c == ')' || c == '"' || pySpace c)

/-- main.py `get_symbol`: at a double quote, read up to the closing
quote, consume it, and mark the result with a leading quote character;
otherwise read up to the next parenthesis or whitespace. -/
def get_symbol (src : List Char) (idx : Nat) : String × Nat :=
  if src.getD idx '\x00' = '"' then
    let body := (src.drop (idx + 1)).takeWhile (fun c => c != '"')
    (⟨'\x27' :: body⟩, idx + 1 + body.length + 1)
  else
    let body := (src.drop idx).takeWhile symPred
    (⟨body⟩, idx + body.length)

/-- The scanning loop of main.py `process_call`, with the recursion on
nested `(` made explicit and the loop bounded by `fuel` so that it is
well-founded (the entry point below always passes enough fuel for the
input, so the `fuel = 0` case is never reached from it).  At `)` the
collected parts become a Call (`make_call(parts[0], parts[1:], ...)`;
on no parts at all that subscript raises `IndexError`).  When the input
ends with parts collected, the unterminated-call error names the first
part; with no parts the Python function falls off the end and returns
`None`, which the caller cannot unpack — modelled as the last error. -/
def pcLoop : Nat → List Char → Nat → List PTok → Except String (PTok × Nat)
  | 0, _, _, _ => Except.error "recursion limit"
  | fuel + 1, src, idx, parts =>
    if idx < src.length then
      if src.getD idx '\x00' = '(' then
        match pcLoop fuel src (idx + 1) [] with
        | Except.ok (callTok, idx2) => pcLoop fuel src idx2 (parts ++ [callTok])
        | Except.error e => Except.error e
      else if src.getD idx '\x00' = ')' then
        match parts with
        | p :: rest => Except.ok (PTok.call (p :: rest), idx + 1)
        | [] => Except.error "IndexError: list index out of range"
      else if pySpace (src.getD idx '\x00') then pcLoop fuel src (idx + 1) parts
      else
        pcLoop fuel src (get_symbol src idx).2
          (parts ++ [PTok.sym (get_symbol src idx).1])
    else
      match parts with
      | p :: _ =>
        Except.error ("Unterminated call to function \"" ++ tokStr p ++ "\"")
      | [] => Except.error "process_call returned None"

/-- main.py `process_call`: the call must begin with `(`; then the
parts are collected by the loop. -/
def process_call (src : List Char) (idx : Nat) : Except String (PTok × Nat) :=
  if src.getD idx '\x00' = '(' then pcLoop (2 * src.length + 2) src (idx + 1) []
  else Except.error "Call must begin with \"(\"."

/-- C8: a string literal value (`StringVar`) is opaque: the resolver
passes it through unchanged for every pair of scopes (so its contents
are never looked up as a symbol name, even when a binding of that name
exists), and it is a value kind distinct from the raw symbol tokens the
parser stores. -/
theorem C8_string_literals_opaque (sc g : Scope) (s call : String) :
    lookup_var sc g (Obj.str s) call = Except.ok (false, Obj.str s) ∧
    Obj.str s ≠ Obj.sym s := by
  refine ⟨rfl, ?_⟩
  intro h
  exact Obj.noConfusion h

/-- C6: behaviour of the symbol resolver on a raw token `s`:
a leading quote yields the remainder as a literal (for any scopes, with
no lookup); an integer token yields that integer; otherwise a leading
`*` on a token of length at least two sets the expand flag and the rest
is the name, while `*` alone is an ordinary name; names resolve against
the local scope first, then the global scope, and a name in neither
produces the unknown-symbol error naming the symbol and the call. -/
theorem C6_symbol_resolution (sc g : Scope) (call s : String) :
    (startsWithChar s '\x27' = true →
      lookup_var sc g (Obj.sym s) call = Except.ok (false, Obj.sym (pyDrop s 1))) ∧
    (∀ n, startsWithChar s '\x27' = false → pyInt? s = some n →
      lookup_var sc g (Obj.sym s) call = Except.ok (false, Obj.int n)) ∧
    (startsWithChar s '\x27' = false → pyInt? s = Option.none →
      startsWithChar s '*' = true → 1 < s.length →
      ((∀ v, scopeGet sc (pyDrop s 1) = some v →
          lookup_var sc g (Obj.sym s) call = Except.ok (true, v)) ∧
       (∀ v, scopeGet sc (pyDrop s 1) = Option.none →
          scopeGet g (pyDrop s 1) = some v →
          lookup_var sc g (Obj.sym s) call = Except.ok (true, v)) ∧
       (scopeGet sc (pyDrop s 1) = Option.none →
        scopeGet g (pyDrop s 1) = Option.none →
          lookup_var sc g (Obj.sym s) call =
            Except.error (unknownSymbolMsg (pyDrop s 1) call)))) ∧
    (startsWithChar s '\x27' = false → pyInt? s = Option.none →
      (startsWithChar s '*' = false ∨ s.length ≤ 1) →
      ((∀ v, scopeGet sc s = some v →
          lookup_var sc g (Obj.sym s) call = Except.ok (false, v)) ∧
       (∀ v, scopeGet sc s = Option.none → scopeGet g s = some v →
          lookup_var sc g (Obj.sym s) call = Except.ok (false, v)) ∧
       (scopeGet sc s = Option.none → scopeGet g s = Option.none →
          lookup_var sc g (Obj.sym s) call =
            Except.error (unknownSymbolMsg s call)))) := by
  constructor
  · intro hq
    simp [lookup_var, hq]
  constructor
  · intro n hq hint
    simp [lookup_var, hq, hint]
  constructor
  · intro hq hint hstar hlen
    have hexp : (startsWithChar s '*' && decide (s.length > 1)) = true := by
      simp [hstar]; omega
    refine ⟨?_, ?_, ?_⟩
    · intro v hv
      simp [lookup_var, hq, hint, hexp, hv]
    · intro v hv hg
      simp [lookup_var, hq, hint, hexp, hv, hg]
    · intro hv hg
      simp [lookup_var, hq, hint, hexp, hv, hg]
  · intro hq hint hno
    have hexp : (startsWithChar s '*' && decide (s.length > 1)) = false := by
      rcases hno with h | h
      · simp [h]
      · simp; omega
    refine ⟨?_, ?_, ?_⟩
    · intro v hv
      simp [lookup_var, hq, hint, hexp, hv]
    · intro v hv hg
      simp [lookup_var, hq, hint, hexp, hv, hg]
    · intro hv hg
      simp [lookup_var, hq, hint, hexp, hv, hg]

/-- Witness for C6 at concrete inputs: the expansion token `*xs` found
in the local scope, and an unknown name producing the error message. -/
theorem C6_symbol_resolution_witness :
    lookup_var [(Obj.sym "xs", Obj.tuple [Obj.int 1])] [] (Obj.sym "*xs") "(print *xs)"
      = Except.ok (true, Obj.tuple [Obj.int 1]) ∧
    lookup_var [] [] (Obj.sym "bar") "(bar \x272\x27)"
      = Except.error (unknownSymbolMsg "bar" "(bar \x272\x27)") := by
  constructor
  · exact ((C6_symbol_resolution [(Obj.sym "xs", Obj.tuple [Obj.int 1])] []
      "(print *xs)" "*xs").2.2.1 (by decide) (by decide) (by decide) (by decide)).1
      (Obj.tuple [Obj.int 1]) rfl
  · exact ((C6_symbol_resolution [] [] "(bar \x272\x27)" "bar").2.2.2 (by decide)
      (by decide) (Or.inl (by decide))).2.2 rfl rfl

theorem evens_interleave (cs : List Obj) :
    ∀ es, cs.length = es.length → CondCall.evens (interleave cs es) = cs := by
  induction cs with
  | nil =>
    intro es h
    cases es with
    | nil => rfl
    | cons b bs => simp at h
  | cons c cs ih =>
    intro es h
    cases es with
    | nil => simp at h
    | cons b bs =>
      simp only [interleave, CondCall.evens]
      rw [ih bs (by simpa using h)]

theorem odds_interleave (cs : List Obj) :
    ∀ es, cs.length = es.length → CondCall.odds (interleave cs es) = es := by
  induction cs with
  | nil =>
    intro es h
    cases es with
    | nil => rfl
    | cons b bs => simp at h
  | cons c cs ih =>
    intro es h
    cases es with
    | nil => simp at h
    | cons b bs =>
      simp only [interleave, CondCall.odds]
      rw [ih bs (by simpa using h)]

theorem prepLoop_finds (args : List Obj) (mid j : Nat) (hj : j < mid)
    (ht : truthy (args.getD j Obj.none) = true) :
    ∀ d i, j - i = d → i ≤ j →
      (∀ k, i ≤ k → k < j → truthy (args.getD k Obj.none) = false) →
      CondCall.prepLoop args mid i =
        args.take mid ++ [args.getD (mid + j) Obj.none] := by
  intro d
  induction d with
  | zero =>
    intro i hd hij _
    have : i = j := by omega
    subst this
    rw [CondCall.prepLoop, if_pos hj, if_pos ht]
  | succ d ih =>
    intro i hd hij hfalse
    have hlt : i < j := by omega
    have hfi : truthy (args.getD i Obj.none) = false :=
      hfalse i le_rfl hlt
    rw [CondCall.prepLoop]
    have hi : i < mid := by omega
    simp only [hi, if_true, hfi]
    simp only [Bool.false_eq_true, if_false]
    exact ih (i + 1) (by omega) (by omega)
      (fun k hk1 hk2 => hfalse k (by omega) hk2)

theorem prepLoop_none (args : List Obj) (mid : Nat)
    (hfalse : ∀ k, k < mid → truthy (args.getD k Obj.none) = false) :
    ∀ d i, mid - i = d → CondCall.prepLoop args mid i = args.take mid := by
  intro d
  induction d with
  | zero =>
    intro i hd
    rw [CondCall.prepLoop]
    have : ¬ i < mid := by omega
    simp [this]
  | succ d ih =>
    intro i hd
    rw [CondCall.prepLoop]
    by_cases hi : i < mid
    · simp only [hi, if_true, hfalse i hi]
      simp only [Bool.false_eq_true, if_false]
      exact ih (i + 1) (by omega)
    · simp [hi]

/-- C5: for a cond call `(cond C1 A1 ... Cn An)` with an even argument
count of at least 2 (conditions evaluated to `cs`, actions `es` still
unevaluated), `sort_args` puts the conditions first in source order;
`prepare` keeps, after the conditions, exactly the action paired with
the earliest truthy condition — every other action is dropped from the
argument list, so it is never evaluated — and `apply` returns that
action once evaluated; if no condition is truthy, `prepare` leaves no
action at all and `apply` returns `None` (Unit). -/
theorem C5_cond_earliest_truthy (cs es : List Obj)
    (hlen : cs.length = es.length) (hpos : 0 < cs.length) :
    (CondCall.sort_args (interleave cs es) = cs ++ es) ∧
    (∀ j, j < cs.length → truthy (cs.getD j Obj.none) = true →
      (∀ k, k < j → truthy (cs.getD k Obj.none) = false) →
      (CondCall.prepare (cs ++ es) = cs ++ [es.getD j Obj.none] ∧
       ∀ w, CondCall.apply (2 * cs.length) (cs ++ [w]) = w)) ∧
    ((∀ c ∈ cs, truthy c = false) →
      (CondCall.prepare (cs ++ es) = cs ∧
       CondCall.apply (2 * cs.length) cs = Obj.none)) := by
  have hmid : (cs ++ es).length / 2 = cs.length := by
    simp [List.length_append, ← hlen]
    omega
  have htake : (cs ++ es).take cs.length = cs := List.take_left cs es
  have hgetc : ∀ k, k < cs.length →
      (cs ++ es).getD k Obj.none = cs.getD k Obj.none := by
    intro k hk
    exact List.getD_append cs es Obj.none k hk
  refine ⟨?_, ?_, ?_⟩
  · unfold CondCall.sort_args
    rw [evens_interleave cs es hlen, odds_interleave cs es hlen]
  · intro j hj htj hfj
    constructor
    · unfold CondCall.prepare
      rw [hmid]
      have := prepLoop_finds (cs ++ es) cs.length j hj
        (by rw [hgetc j hj]; exact htj) j 0 (by omega) (by omega)
        (fun k _ hk => by rw [hgetc k (by omega)]; exact hfj k hk)
      rw [this, htake]
      congr 1
      rw [List.getD_append_right cs es Obj.none (cs.length + j) (by omega),
        Nat.add_sub_cancel_left]
    · intro w
      unfold CondCall.apply
      have : 2 * cs.length < 2 * (cs ++ [w]).length := by
        simp
      simp only [this, if_true]
      exact List.getLastD_concat Obj.none w cs
  · intro hall
    constructor
    · unfold CondCall.prepare
      rw [hmid]
      have := prepLoop_none (cs ++ es) cs.length
        (fun k hk => by
          rw [hgetc k hk]
          refine hall (cs.getD k Obj.none) ?_
          rw [List.getD_eq_getElem cs Obj.none hk]
          exact List.getElem_mem hk)
        cs.length 0 (by omega)
      rw [this, htake]
    · unfold CondCall.apply
      have : ¬ 2 * cs.length < 2 * cs.length := by omega
      simp [this]

/-- Witness for C5: `(cond 0 a 2 b)` keeps only the second action and
returns its value; `(cond 0 a)` keeps no action and returns `None`. -/
theorem C5_cond_earliest_truthy_witness :
    (CondCall.prepare [Obj.int 0, Obj.int 2, Obj.sym "a", Obj.sym "b"]
        = [Obj.int 0, Obj.int 2, Obj.sym "b"] ∧
     CondCall.apply 4 [Obj.int 0, Obj.int 2, Obj.int 6] = Obj.int 6) ∧
    (CondCall.prepare [Obj.int 0, Obj.sym "a"] = [Obj.int 0] ∧
     CondCall.apply 2 [Obj.int 0] = Obj.none) := by
  constructor
  · have h := (C5_cond_earliest_truthy [Obj.int 0, Obj.int 2]
      [Obj.sym "a", Obj.sym "b"] rfl (by decide)).2.1 1 (by decide) (by decide)
      (fun k hk => by
        have : k = 0 := by omega
        subst this
        decide)
    exact ⟨h.1, h.2 (Obj.int 6)⟩
  · have h := (C5_cond_earliest_truthy [Obj.int 0] [Obj.sym "a"] rfl
      (by decide)).2.2 (by intro c hc; simp at hc; subst hc; decide)
    exact h

/-- C4: a defun in the branch of an `if` that is not taken is dropped
from the argument list by `IfCall.prepare`, so it is never executed and
its name is never installed in the global scope — a later call to that
name fails with the unknown-symbol error — while the defun in the taken
branch survives `prepare` and, once applied, installs exactly its own
name; `DefineFunctionCall.prepare` removes the body from the argument
list syntactically unchanged (stashing it for `apply` to store on the
function), so a defun body is never evaluated at definition time. -/
theorem C4_defun_in_untaken_branch :
    (∀ c t e, truthy c = true → IfCall.prepare [c, t, e] = [c, t]) ∧
    (∀ c t e, truthy c = false → IfCall.prepare [c, t, e] = [c, e]) ∧
    (∀ args body, DefineFunctionCall.prepare (args ++ [body]) = (args, body)) ∧
    (∀ variadic body captures g nm rest,
      (DefineFunctionCall.apply variadic body captures g (Obj.sym nm :: rest)).2
        = Obj.fn (Obj.sym nm) rest variadic
            (if variadic then rest.length - 1 else rest.length) (!variadic)
            body captures ∧
      scopeGet (DefineFunctionCall.apply variadic body captures g
          (Obj.sym nm :: rest)).1 nm
        = some (DefineFunctionCall.apply variadic body captures g
            (Obj.sym nm :: rest)).2 ∧
      (∀ m, m ≠ nm →
        scopeGet (DefineFunctionCall.apply variadic body captures g
            (Obj.sym nm :: rest)).1 m = scopeGet g m)) ∧
    (∀ (loc g : Scope) (nm call : String),
      startsWithChar nm '\x27' = false → pyInt? nm = Option.none →
      (startsWithChar nm '*' = false ∨ nm.length ≤ 1) →
      scopeGet loc nm = Option.none → scopeGet g nm = Option.none →
      lookup_var loc g (Obj.sym nm) call
        = Except.error (unknownSymbolMsg nm call)) := by
  refine ⟨?_, ?_, ?_, ?_, ?_⟩
  · intro c t e h
    simp [IfCall.prepare, h]
  · intro c t e h
    simp [IfCall.prepare, h]
  · intro args body
    simp [DefineFunctionCall.prepare, List.dropLast_concat,
      List.getLastD_concat]
  · intro variadic body captures g nm rest
    refine ⟨rfl, ?_, ?_⟩
    · simp [DefineFunctionCall.apply, pyStrKey, scopeSet, scopeGet]
    · intro m hm
      simp only [DefineFunctionCall.apply, pyStrKey, scopeSet, scopeGet]
      rw [if_neg (fun h => hm h.symm)]
  · intro loc g nm call hq hint hno hl hg
    have hexp : (startsWithChar nm '*' && decide (nm.length > 1)) = false := by
      rcases hno with h | h
      · simp [h]
      · simp
        omega
    simp [lookup_var, hq, hint, hexp, hl, hg]

/-- Witness for C4: with a truthy condition `(if 1 (defun ...foo...)
(defun ...bar...))` keeps only the foo defun; the defun prepare pops a
concrete body; a later `(bar 2)` with `bar` nowhere in scope errors. -/
theorem C4_defun_in_untaken_branch_witness :
    IfCall.prepare [Obj.int 1,
        Obj.call "defun" [Obj.sym "\x27foo"],
        Obj.call "defun" [Obj.sym "\x27bar"]]
      = [Obj.int 1, Obj.call "defun" [Obj.sym "\x27foo"]] ∧
    DefineFunctionCall.prepare [Obj.sym "\x27foo", Obj.call "+" [Obj.sym "x"]]
      = ([Obj.sym "\x27foo"], Obj.call "+" [Obj.sym "x"]) ∧
    lookup_var [] [] (Obj.sym "bar") "(bar \x272\x27)"
      = Except.error (unknownSymbolMsg "bar" "(bar \x272\x27)") := by
  refine ⟨?_, ?_, ?_⟩
  · exact C4_defun_in_untaken_branch.1 (Obj.int 1)
      (Obj.call "defun" [Obj.sym "\x27foo"])
      (Obj.call "defun" [Obj.sym "\x27bar"]) (by decide)
  · exact C4_defun_in_untaken_branch.2.2.1 [Obj.sym "\x27foo"]
      (Obj.call "+" [Obj.sym "x"])
  · exact C4_defun_in_untaken_branch.2.2.2.2 [] [] "bar" "(bar \x272\x27)"
      (by decide) (by decide) (Or.inl (by decide)) rfl rfl

theorem scopeGet_set_self (s : Scope) (n : String) (v : Obj) :
    scopeGet (scopeSet s (Obj.sym n) v) n = some v := by
  simp [scopeSet, scopeGet]

theorem scopeGet_set_other (s : Scope) (k v : Obj) (n : String)
    (h : Obj.sym n ≠ k) : scopeGet (scopeSet s k v) n = scopeGet s n := by
  cases k with
  | sym ks =>
    have hne : ¬ ks = n := fun hc => h (by rw [hc])
    simp [scopeSet, scopeGet, hne]
  | int n0 => simp [scopeSet, scopeGet]
  | str s0 => simp [scopeSet, scopeGet]
  | bool b0 => simp [scopeSet, scopeGet]
  | none => simp [scopeSet, scopeGet]
  | tuple xs => simp [scopeSet, scopeGet]
  | fn a b c d e f g => simp [scopeSet, scopeGet]
  | call h0 a => simp [scopeSet, scopeGet]

theorem scopeGet_updateScope (entries : List (Obj × Obj)) :
    ∀ (s : Scope) (n : String),
      (scopeGet (BaseUserCall.updateScope s entries) n).isSome →
      (scopeGet s n).isSome ∨ Obj.sym n ∈ entries.map Prod.fst := by
  induction entries with
  | nil =>
    intro s n h
    exact Or.inl h
  | cons e rest ih =>
    intro s n h
    by_cases hk : Obj.sym n = e.1
    · right
      simp [← hk]
    · rcases ih (scopeSet s e.1 e.2) n h with h2 | h2
      · rw [scopeGet_set_other s e.1 e.2 n hk] at h2
        exact Or.inl h2
      · right
        simp [h2]

theorem bindLoop_domain (exactArity : Bool) (numArgs : Nat) (fname : String)
    (origLen : Nat) (ans : List Obj) :
    ∀ (scope : Scope) (rem : List Obj) (sc : Scope),
      BaseUserCall.bindLoop exactArity numArgs fname origLen scope ans rem
        = Except.ok sc →
      ∀ n, (scopeGet sc n).isSome →
        (scopeGet scope n).isSome ∨ Obj.sym n ∈ ans ∨ n = "*" := by
  induction ans with
  | nil =>
    intro scope rem sc h n hn
    simp only [BaseUserCall.bindLoop] at h
    injection h with h
    subst h
    exact Or.inl hn
  | cons an ans ih =>
    intro scope rem sc h n hn
    simp only [BaseUserCall.bindLoop] at h
    by_cases hstar : BaseUserCall.isStarName an = true
    · rw [if_pos hstar] at h
      injection h with h
      subst h
      by_cases hk : Obj.sym n = Obj.sym "*"
      · right; right
        injection hk
      · rw [scopeGet_set_other scope (Obj.sym "*") (Obj.tuple rem) n hk] at hn
        exact Or.inl hn
    · rw [if_neg hstar] at h
      cases rem with
      | nil => exact absurd h (by simp)
      | cons a rest =>
        by_cases hk : Obj.sym n = an
        · right; left
          rw [hk]
          exact List.mem_cons_self an ans
        · rcases ih (scopeSet scope an a) rest sc h n hn with h2 | h2 | h2
          · rw [scopeGet_set_other scope an a n hk] at h2
            exact Or.inl h2
          · right; left
            exact List.mem_cons_of_mem an h2
          · right; right
            exact h2

theorem bindLoop_mono (exactArity : Bool) (numArgs : Nat) (fname : String)
    (origLen : Nat) (ans : List Obj) :
    ∀ (scope : Scope) (rem : List Obj) (sc : Scope),
      BaseUserCall.bindLoop exactArity numArgs fname origLen scope ans rem
        = Except.ok sc →
      ∀ n, (scopeGet scope n).isSome → (scopeGet sc n).isSome := by
  induction ans with
  | nil =>
    intro scope rem sc h n hn
    simp only [BaseUserCall.bindLoop] at h
    injection h with h
    subst h
    exact hn
  | cons an ans ih =>
    intro scope rem sc h n hn
    simp only [BaseUserCall.bindLoop] at h
    by_cases hstar : BaseUserCall.isStarName an = true
    · rw [if_pos hstar] at h
      injection h with h
      subst h
      by_cases hk : Obj.sym n = Obj.sym "*"
      · rw [← hk, scopeGet_set_self]
        rfl
      · rw [scopeGet_set_other scope (Obj.sym "*") (Obj.tuple rem) n hk]
        exact hn
    · rw [if_neg hstar] at h
      cases rem with
      | nil => exact absurd h (by simp)
      | cons a rest =>
        refine ih (scopeSet scope an a) rest sc h n ?_
        by_cases hk : Obj.sym n = an
        · rw [← hk, scopeGet_set_self]
          rfl
        · rw [scopeGet_set_other scope an a n hk]
          exact hn

/-- C1: a user-function invocation prepares a fresh local scope that
does not depend on the caller's local scope in any way; that scope
contains only the parameter bindings, the lambda captures and `*`
(pre-bound for variadics even when no extra arguments were passed); a
name bound only in the caller's local scope is therefore not visible
inside the body — resolving it in the function's scope fails with the
unknown-symbol error. -/
theorem C1_user_call_fresh_scope
    (argNames : List Obj) (variadic : Bool) (numArgs : Nat)
    (exactArity : Bool) (fname : String) (captures : List (Obj × Obj))
    (body : Obj) (callerScope : Scope) (args args2 : List Obj) (sc : Scope)
    (hok : BaseUserCall.prepare argNames variadic numArgs exactArity fname
      captures body callerScope args = Except.ok (args2, sc)) :
    (∀ otherScope, BaseUserCall.prepare argNames variadic numArgs exactArity
        fname captures body otherScope args
      = BaseUserCall.prepare argNames variadic numArgs exactArity fname
          captures body callerScope args) ∧
    (∀ n, (scopeGet sc n).isSome →
      Obj.sym n ∈ argNames ∨ Obj.sym n ∈ captures.map Prod.fst ∨ n = "*") ∧
    (variadic = true → (scopeGet sc "*").isSome) ∧
    (∀ (g : Scope) (x call : String),
      startsWithChar x '\x27' = false → pyInt? x = Option.none →
      (startsWithChar x '*' = false ∨ x.length ≤ 1) →
      (scopeGet callerScope x).isSome →
      Obj.sym x ∉ argNames → Obj.sym x ∉ captures.map Prod.fst → x ≠ "*" →
      scopeGet g x = Option.none →
      lookup_var sc g (Obj.sym x) call
        = Except.error (unknownSymbolMsg x call)) := by
  simp only [BaseUserCall.prepare] at hok
  cases hbind : BaseUserCall.bindLoop exactArity numArgs fname args.length
      (if variadic then
        scopeSet (BaseUserCall.updateScope [] captures) (Obj.sym "*")
          (Obj.tuple [])
      else BaseUserCall.updateScope [] captures) argNames args with
  | error e =>
    rw [hbind] at hok
    exact absurd hok (by simp)
  | ok sc2 =>
    rw [hbind] at hok
    injection hok with hok
    have hsc : sc = sc2 := (congrArg Prod.snd hok).symm
    subst hsc
    have hdom : ∀ n, (scopeGet sc n).isSome →
        Obj.sym n ∈ argNames ∨ Obj.sym n ∈ captures.map Prod.fst ∨ n = "*" := by
      intro n hn
      rcases bindLoop_domain exactArity numArgs fname args.length argNames _
          args sc hbind n hn with h | h | h
      · by_cases hv : variadic = true
        · rw [if_pos hv] at h
          by_cases hk : Obj.sym n = Obj.sym "*"
          · right; right
            injection hk
          · rw [scopeGet_set_other _ (Obj.sym "*") (Obj.tuple []) n hk] at h
            rcases scopeGet_updateScope captures [] n h with h2 | h2
            · simp [scopeGet] at h2
            · exact Or.inr (Or.inl h2)
        · rw [if_neg hv] at h
          rcases scopeGet_updateScope captures [] n h with h2 | h2
          · simp [scopeGet] at h2
          · exact Or.inr (Or.inl h2)
      · exact Or.inl h
      · exact Or.inr (Or.inr h)
    refine ⟨fun otherScope => rfl, hdom, ?_, ?_⟩
    · intro hv
      refine bindLoop_mono exactArity numArgs fname args.length argNames _
        args sc hbind "*" ?_
      rw [if_pos hv, scopeGet_set_self]
      rfl
    · intro g x call hq hint hno _hcaller hnp hnc hnstar hg
      have hnone : scopeGet sc x = Option.none := by
        cases hx : scopeGet sc x with
        | none => rfl
        | some v =>
          rcases hdom x (by rw [hx]; rfl) with h | h | h
          · exact absurd h hnp
          · exact absurd h hnc
          · exact absurd h hnstar
      have hexp : (startsWithChar x '*' && decide (x.length > 1)) = false := by
        rcases hno with h | h
        · simp [h]
        · simp
          omega
      simp [lookup_var, hq, hint, hexp, hnone, hg]

/-- Witness for C1: a one-parameter function called with one argument;
the caller-scope name `x` is not visible in the prepared scope. -/
theorem C1_user_call_fresh_scope_witness :
    BaseUserCall.prepare [Obj.sym "a"] false 1 true "f" []
        (Obj.call "+" [Obj.sym "a"]) [(Obj.sym "x", Obj.int 5)] [Obj.int 1]
      = Except.ok ([Obj.int 1, Obj.call "+" [Obj.sym "a"]],
          [(Obj.sym "a", Obj.int 1)]) ∧
    lookup_var [(Obj.sym "a", Obj.int 1)] [] (Obj.sym "x") "(+ a x)"
      = Except.error (unknownSymbolMsg "x" "(+ a x)") := by
  constructor
  · rfl
  · exact (C1_user_call_fresh_scope [Obj.sym "a"] false 1 true "f" []
      (Obj.call "+" [Obj.sym "a"]) [(Obj.sym "x", Obj.int 5)] [Obj.int 1]
      [Obj.int 1, Obj.call "+" [Obj.sym "a"]] [(Obj.sym "a", Obj.int 1)]
      rfl).2.2.2 [] "x" "(+ a x)" (by decide) (by decide) (Or.inl (by decide))
      (by rfl) (by simp) (by simp) (by decide) rfl

theorem storeGet_append_lt (st : Store) (d : Scope) (r : Nat)
    (h : r < st.length) : storeGet (st ++ [d]) r = storeGet st r := by
  unfold storeGet
  exact List.getD_append st [d] [] r h

theorem storeGet_append_last (st : Store) (d : Scope) :
    storeGet (st ++ [d]) st.length = d := by
  unfold storeGet
  rw [List.getD_eq_getElem?_getD, List.getElem?_append_right le_rfl]
  simp

theorem storeGet_write_other (st : Store) (r1 r : Nat) (k v : Obj)
    (h : r1 ≠ r) : storeGet (storeWrite st r1 k v) r = storeGet st r := by
  unfold storeWrite storeGet
  rw [List.getD_eq_getElem?_getD, List.getElem?_set_ne h,
    ← List.getD_eq_getElem?_getD]

theorem storeGet_write_self (st : Store) (r : Nat) (k v : Obj)
    (h : r < st.length) :
    storeGet (storeWrite st r k v) r = scopeSet (storeGet st r) k v := by
  unfold storeWrite storeGet
  rw [List.getD_eq_getElem?_getD, List.getElem?_set_self (by simpa using h)]
  simp

theorem storeWrite_length (st : Store) (r : Nat) (k v : Obj) :
    (storeWrite st r k v).length = st.length := by
  unfold storeWrite
  exact List.length_set st _ _

theorem foldWrite_other (ops : List (Obj × Obj)) (r1 r : Nat) (h : r1 ≠ r) :
    ∀ st : Store,
      storeGet (ops.foldl (fun acc kv => storeWrite acc r1 (pyStrKey kv.1) kv.2) st) r
        = storeGet st r := by
  induction ops with
  | nil => intro st; rfl
  | cons kv rest ih =>
    intro st
    rw [List.foldl_cons, ih, storeGet_write_other st r1 r _ _ h]

theorem foldWrite_unbound (ops : List (Obj × Obj)) (r1 : Nat) (n : String)
    (hn : ∀ kv ∈ ops, Obj.sym n ≠ pyStrKey kv.1) :
    ∀ st : Store, r1 < st.length →
      scopeGet (storeGet
        (ops.foldl (fun acc kv => storeWrite acc r1 (pyStrKey kv.1) kv.2) st) r1) n
      = scopeGet (storeGet st r1) n := by
  induction ops with
  | nil => intro st _; rfl
  | cons kv rest ih =>
    intro st hr
    rw [List.foldl_cons,
      ih (fun e he => hn e (List.mem_cons_of_mem kv he))
        (storeWrite st r1 (pyStrKey kv.1) kv.2) (by rw [storeWrite_length]; exact hr),
      storeGet_write_self st r1 _ _ hr,
      scopeGet_set_other _ _ _ _ (hn kv (List.mem_cons_self kv rest))]

/-- C7: `let` makes its bindings in a copy of the current local scope:
the caller's dict is exactly what it was before (so a name the let
shadowed still has its outer value there, and names the let introduced
are not visible in it), the inner scope is a fresh dict seeded with the
caller's bindings (a name the let does not bind reads its outer value
inside), a single binding is visible in the inner scope, and the
argument list is returned unchanged. -/
theorem C7_let_inner_scope_copied (st : Store) (r : Nat) (args : List Obj)
    (hr : r < st.length) :
    ((LetCall.prepare st r args).2.2 = args) ∧
    ((LetCall.prepare st r args).2.1 ≠ r) ∧
    (storeGet (LetCall.prepare st r args).1 r = storeGet st r) ∧
    (∀ n, (∀ kv ∈ pairList args.dropLast, Obj.sym n ≠ pyStrKey kv.1) →
      scopeGet (storeGet (LetCall.prepare st r args).1
          (LetCall.prepare st r args).2.1) n
        = scopeGet (storeGet st r) n) ∧
    (∀ k v bodyE n, args = [k, v, bodyE] → pyStrKey k = Obj.sym n →
      scopeGet (storeGet (LetCall.prepare st r args).1
          (LetCall.prepare st r args).2.1) n = some v) := by
  have hne : st.length ≠ r := by omega
  refine ⟨rfl, fun hc => hne hc, ?_, ?_, ?_⟩
  · show storeGet ((pairList args.dropLast).foldl
        (fun acc kv => storeWrite acc st.length (pyStrKey kv.1) kv.2)
        (st ++ [storeGet st r])) r = storeGet st r
    rw [foldWrite_other _ st.length r hne, storeGet_append_lt st _ r hr]
  · intro n hn
    show scopeGet (storeGet ((pairList args.dropLast).foldl
        (fun acc kv => storeWrite acc st.length (pyStrKey kv.1) kv.2)
        (st ++ [storeGet st r])) st.length) n = scopeGet (storeGet st r) n
    rw [foldWrite_unbound _ st.length n hn (st ++ [storeGet st r]) (by simp),
      storeGet_append_last]
  · intro k v bodyE n hargs hk
    subst hargs
    show scopeGet (storeGet ([(k, v)].foldl
        (fun acc kv => storeWrite acc st.length (pyStrKey kv.1) kv.2)
        (st ++ [storeGet st r])) st.length) n = some v
    rw [List.foldl_cons, List.foldl_nil,
      storeGet_write_self _ st.length _ _ (by simp), hk, scopeGet_set_self]

/-- Witness for C7: `(let x 2 body)` over a caller scope binding `x` to
`1`: the caller's dict still maps `x` to `1` afterwards, while the
inner dict maps `x` to `2`. -/
theorem C7_let_inner_scope_copied_witness :
    storeGet (LetCall.prepare [[(Obj.sym "x", Obj.int 1)]] 0
        [Obj.sym "x", Obj.int 2, Obj.call "+" [Obj.sym "x"]]).1 0
      = [(Obj.sym "x", Obj.int 1)] ∧
    scopeGet (storeGet (LetCall.prepare [[(Obj.sym "x", Obj.int 1)]] 0
        [Obj.sym "x", Obj.int 2, Obj.call "+" [Obj.sym "x"]]).1
        (LetCall.prepare [[(Obj.sym "x", Obj.int 1)]] 0
          [Obj.sym "x", Obj.int 2, Obj.call "+" [Obj.sym "x"]]).2.1) "x"
      = some (Obj.int 2) := by
  constructor
  · exact (C7_let_inner_scope_copied [[(Obj.sym "x", Obj.int 1)]] 0
      [Obj.sym "x", Obj.int 2, Obj.call "+" [Obj.sym "x"]] (by decide)).2.2.1
  · exact (C7_let_inner_scope_copied [[(Obj.sym "x", Obj.int 1)]] 0
      [Obj.sym "x", Obj.int 2, Obj.call "+" [Obj.sym "x"]] (by decide)).2.2.2.2
      (Obj.sym "x") (Obj.int 2) (Obj.call "+" [Obj.sym "x"]) "x" rfl rfl

theorem flattenElems_spec :
    ∀ xs : List Obj, isValueList xs = true →
      flattenElems xs = some (specFlattenList xs)
  | [], _ => by
    simp [flattenElems, specFlattenList]
  | Obj.int n :: t, h => by
    rw [isValueList, Bool.and_eq_true] at h
    simp [flattenElems, flattenElems_spec t h.2, specFlattenList, specFlatten]
  | Obj.str s :: t, h => by
    rw [isValueList, Bool.and_eq_true] at h
    simp [flattenElems, flattenElems_spec t h.2, specFlattenList, specFlatten]
  | Obj.sym s :: t, h => by
    rw [isValueList, Bool.and_eq_true] at h
    simp [isValue] at h
  | Obj.bool b :: t, h => by
    rw [isValueList, Bool.and_eq_true] at h
    simp [flattenElems, flattenElems_spec t h.2, specFlattenList, specFlatten]
  | Obj.none :: t, h => by
    rw [isValueList, Bool.and_eq_true] at h
    simp [flattenElems, flattenElems_spec t h.2, specFlattenList, specFlatten]
  | Obj.tuple xs :: t, h => by
    rw [isValueList, Bool.and_eq_true] at h
    rw [isValue] at h
    simp [flattenElems, flattenElems_spec xs h.1, flattenElems_spec t h.2,
      specFlattenList, specFlatten]
  | Obj.fn a b c d e f g :: t, h => by
    rw [isValueList, Bool.and_eq_true] at h
    simp [flattenElems, flattenElems_spec t h.2, specFlattenList, specFlatten]
  | Obj.call hd a :: t, h => by
    rw [isValueList, Bool.and_eq_true] at h
    simp [isValue] at h
termination_by xs => sizeOf xs

/-- C3: flatten on a string literal yields the list of its
one-character strings; flatten on a (possibly nested) list of values
yields the flat list of its non-list elements in order with string
elements kept whole (`specFlattenList`, stated from the spec); flatten
on a non-iterable — an integer, a boolean, `None`, or a function
reference — fails with the flatten-not-called-with-a-list error. -/
theorem C3_flatten_behaviour (rep : String) :
    (∀ s, flattenApply rep (Obj.str s)
      = FlattenResult.ok (s.data.map fun c => Obj.str (String.singleton c))) ∧
    (∀ xs, isValueList xs = true →
      flattenApply rep (Obj.tuple xs)
        = FlattenResult.ok (specFlattenList xs)) ∧
    (∀ v, (∃ n, v = Obj.int n) ∨ (∃ b, v = Obj.bool b) ∨ v = Obj.none ∨
        (∃ a b c d e f g, v = Obj.fn a b c d e f g) →
      flattenApply rep v
        = FlattenResult.err
            ("Flatten \"" ++ rep ++ "\" not called with a list.")) := by
  refine ⟨fun s => rfl, ?_, ?_⟩
  · intro xs h
    simp [flattenApply, flattenElems_spec xs h]
  · intro v hv
    rcases hv with ⟨n, rfl⟩ | ⟨b, rfl⟩ | rfl | ⟨a, b, c, d, e, f, g, rfl⟩ <;> rfl

/-- Witness for C3: flatten of the string literal `"ab"`, of the nested
list `((1 "ab") 3)`, and of the integer `7`. -/
theorem C3_flatten_behaviour_witness :
    flattenApply "(flatten ls)" (Obj.str "ab")
      = FlattenResult.ok [Obj.str "a", Obj.str "b"] ∧
    flattenApply "(flatten ls)"
        (Obj.tuple [Obj.tuple [Obj.int 1, Obj.str "ab"], Obj.int 3])
      = FlattenResult.ok [Obj.int 1, Obj.str "ab", Obj.int 3] ∧
    flattenApply "(flatten ls)" (Obj.int 7)
      = FlattenResult.err "Flatten \"(flatten ls)\" not called with a list." := by
  refine ⟨?_, ?_, ?_⟩
  · exact (C3_flatten_behaviour "(flatten ls)").1 "ab"
  · refine ((C3_flatten_behaviour "(flatten ls)").2.1
      [Obj.tuple [Obj.int 1, Obj.str "ab"], Obj.int 3]
      (by simp [isValueList, isValue])).trans ?_
    simp [specFlattenList, specFlatten]
  · exact (C3_flatten_behaviour "(flatten ls)").2.2 (Obj.int 7)
      (Or.inl ⟨7, rfl⟩)

theorem machineRun_step :
    ∀ (e : PExpr) (done : List Int) (t : List PExpr) (rest : List PFrame),
      machineRun (⟨done, e :: t⟩ :: rest)
        = machineRun (⟨done ++ [pdenote e], t⟩ :: rest)
  | PExpr.num n, done, t, rest => by
    simp [machineRun, pdenote]
  | PExpr.plus a b, done, t, rest => by
    rw [show machineRun (⟨done, PExpr.plus a b :: t⟩ :: rest)
        = machineRun (⟨[], [a, b]⟩ :: ⟨done, t⟩ :: rest) from by
      simp [machineRun]]
    rw [machineRun_step a [] [b] (⟨done, t⟩ :: rest),
      show ([] : List Int) ++ [pdenote a] = [pdenote a] from rfl,
      machineRun_step b [pdenote a] [] (⟨done, t⟩ :: rest)]
    simp [machineRun, pdenote]

theorem machineEval_correct (e : PExpr) : machineEval e = some (pdenote e) := by
  unfold machineEval
  rw [machineRun_step e [] [] []]
  simp [machineRun]

/-- C2: for every nesting depth `d` — with no bound whatsoever, in
particular beyond any host stack depth — the nested-addition chain
evaluates successfully on the explicit-stack evaluator to its sum.  The
evaluator (`machineRun`, modelled from spec 4.6 because the newer
front end's `execute` is not under src/) performs one constant-size
tail step per node: nested calls grow only the explicit frame stack,
never the host stack; `+` has a trivial `prepare`, so no
`prepare`-nesting is involved in these chains. -/
theorem C2_deep_chain_evaluates (d : Nat) :
    machineEval (chainExpr d) = some (chainSum d) := by
  have h : pdenote (chainExpr d) = chainSum d := by
    induction d with
    | zero => rfl
    | succ d ih => simp [chainExpr, pdenote, chainSum, ih]
  rw [machineEval_correct (chainExpr d), h]

theorem dropWhile_length_le (p : Char → Bool) (l : List Char) :
    (l.dropWhile p).length ≤ l.length :=
  (@List.dropWhile_sublist Char l p).length_le

theorem afterComment_length (cs : List Char) :
    (afterComment cs).length ≤ cs.length := by
  unfold afterComment
  have h := dropWhile_length_le (fun d => d != '\n') cs
  cases hd : cs.dropWhile (fun d => d != '\n') with
  | nil => simp
  | cons d r =>
    rw [hd] at h
    cases hdn : d == '\n' with
    | true =>
      have : d = '\n' := by simpa using hdn
      subst this
      simp at h ⊢
      omega
    | false =>
      have : ¬ d = '\n' := by simpa using hdn
      simp [this] at h ⊢
      omega

theorem pySpace_ne (c : Char) (h : pySpace c = true) :
    c ≠ '#' ∧ c ≠ '(' ∧ c ≠ ')' := by
  simp [pySpace] at h
  rcases h with ((((h | h) | h) | h) | h) | h <;> subst h <;>
    exact ⟨by decide, by decide, by decide⟩

theorem isPlain_spec (c : Char) (h : isPlain c = true) :
    pySpace c = false ∧ c ≠ '#' ∧ c ≠ '(' ∧ c ≠ ')' := by
  simp [isPlain] at h
  exact ⟨h.1.1.1, h.1.1.2, h.1.2, h.2⟩

theorem stripComments_id (l : List Char) (h : ∀ c ∈ l, c ≠ '#') :
    stripComments l = l := by
  induction l with
  | nil => rw [stripComments]
  | cons c cs ih =>
    rw [stripComments, if_neg (h c (List.mem_cons_self c cs)),
      ih (fun d hd => h d (List.mem_cons_of_mem c hd))]

theorem dropWhile_append_all (p : Char → Bool) (w ys : List Char)
    (h : ∀ c ∈ w, p c = true) :
    (w ++ ys).dropWhile p = ys.dropWhile p := by
  induction w with
  | nil => rfl
  | cons c cs ih =>
    rw [List.cons_append, List.dropWhile_cons_of_pos (h c (List.mem_cons_self c cs)),
      ih (fun d hd => h d (List.mem_cons_of_mem c hd))]

theorem dropWhile_head_false (p : Char → Bool) (ys : List Char)
    (h : ys = [] ∨ p (ys.headD ' ') = false) : ys.dropWhile p = ys := by
  cases ys with
  | nil => rfl
  | cons d ds =>
    rcases h with h | h
    · exact absurd h (by simp)
    · simp at h
      rw [List.dropWhile_cons_of_neg (by simp [h])]

theorem collapseWs_plain (xs : List Char) (h : ∀ c ∈ xs, pySpace c = false) :
    ∀ ys, collapseWs (xs ++ ys) = xs ++ collapseWs ys := by
  induction xs with
  | nil => intro ys; rfl
  | cons c cs ih =>
    intro ys
    rw [List.cons_append, collapseWs,
      if_neg (by simp [h c (List.mem_cons_self c cs)]),
      ih (fun d hd => h d (List.mem_cons_of_mem c hd)) ys, List.cons_append]

theorem collapseWs_run (w ys : List Char) (hw0 : w ≠ [])
    (hw : ∀ c ∈ w, pySpace c = true)
    (hys : ys = [] ∨ pySpace (ys.headD ' ') = false) :
    collapseWs (w ++ ys) = ' ' :: collapseWs ys := by
  cases w with
  | nil => exact absurd rfl hw0
  | cons c cs =>
    rw [List.cons_append, collapseWs,
      if_pos (hw c (List.mem_cons_self c cs)),
      dropWhile_append_all pySpace cs ys
        (fun d hd => hw d (List.mem_cons_of_mem c hd)),
      dropWhile_head_false pySpace ys hys]

theorem rbs_id (l : List Char) (h : ∀ c ∈ l, c ≠ '(' ∧ c ≠ ')') :
    rbs l = l := by
  induction l with
  | nil => rw [rbs]
  | cons c cs ih =>
    have hc := h c (List.mem_cons_self c cs)
    have ht : ∀ d ∈ cs, d ≠ '(' ∧ d ≠ ')' :=
      fun d hd => h d (List.mem_cons_of_mem c hd)
    rw [rbs, if_neg (by simp [hc.1, hc.2])]
    have hbr : bracketHead (cs.dropWhile pySpace) = false := by
      cases hd : cs.dropWhile pySpace with
      | nil => rfl
      | cons d ds =>
        have hdm : d ∈ cs := by
          have := (List.dropWhile_sublist pySpace (l := cs)).subset
          exact this (hd ▸ List.mem_cons_self d ds)
        have := ht d hdm
        simp [bracketHead, this.1, this.2]
    rw [dif_neg (by simp [hbr]), ih ht]

theorem rbs_plain_front (xs : List Char)
    (h : ∀ c ∈ xs, pySpace c = false ∧ c ≠ '(' ∧ c ≠ ')') :
    ∀ ys, rbs (xs ++ ys) = xs ++ rbs ys := by
  induction xs with
  | nil => intro ys; rfl
  | cons c cs ih =>
    intro ys
    have hc := h c (List.mem_cons_self c cs)
    rw [List.cons_append, rbs, if_neg (by simp [hc.2.1, hc.2.2]),
      dif_neg (by simp [hc.1]),
      ih (fun d hd => h d (List.mem_cons_of_mem c hd)) ys, List.cons_append]

theorem rbs_space_bracket (c : Char) (cs : List Char) (d : Char)
    (ds : List Char) (hc : pySpace c = true)
    (hd : cs.dropWhile pySpace = d :: ds) (hbr : d = '(' ∨ d = ')') :
    rbs (c :: cs) = d :: rbs (ds.dropWhile pySpace) := by
  have hcp := pySpace_ne c hc
  rw [rbs, if_neg (by simp [hcp.2.1, hcp.2.2]),
    dif_pos ⟨hc, by rcases hbr with h | h <;> simp [hd, bracketHead, h]⟩,
    hd]
  rfl

theorem collapseWs_nil : collapseWs [] = [] := by
  rw [collapseWs]

theorem collapseWs_plain_all (xs : List Char)
    (h : ∀ c ∈ xs, pySpace c = false) : collapseWs xs = xs := by
  have h2 := collapseWs_plain xs h []
  rw [List.append_nil] at h2
  rw [h2, collapseWs_nil, List.append_nil]

/-- C10: normalisation applies its whitespace rules inside `"..."`
literals too (the passes see the raw text and know nothing of quotes):
a whitespace run between the quotes collapses to a single space; a
whitespace run whose next character is `(` disappears together with
the whitespace following the parenthesis; and whenever the collapsed
run was not already exactly one space the normalised text differs from
the source — the string value the program observes differs from the
characters written. -/
theorem C10_normalise_inside_string_literals
    (a b w w2 : List Char)
    (ha : ∀ c ∈ a, isPlain c = true) (hb : ∀ c ∈ b, isPlain c = true)
    (hw : ∀ c ∈ w, pySpace c = true) (hw0 : w ≠ [])
    (hw2 : ∀ c ∈ w2, pySpace c = true) (hw20 : w2 ≠ []) :
    normalise ('"' :: a ++ w ++ b ++ ['"'])
      = '"' :: a ++ ' ' :: b ++ ['"'] ∧
    normalise ('"' :: a ++ w ++ '(' :: w2 ++ b ++ ['"'])
      = '"' :: a ++ '(' :: b ++ ['"'] ∧
    (w ≠ [' '] →
      normalise ('"' :: a ++ w ++ b ++ ['"']) ≠ '"' :: a ++ w ++ b ++ ['"']) := by
  have hqa : ∀ c ∈ '"' :: a, pySpace c = false ∧ c ≠ '(' ∧ c ≠ ')' := by
    intro c hc
    rcases List.mem_cons.1 hc with h | h
    · subst h
      exact ⟨by decide, by decide, by decide⟩
    · have := isPlain_spec c (ha c h)
      exact ⟨this.1, this.2.2.1, this.2.2.2⟩
  have hbq : ∀ c ∈ b ++ ['"'], pySpace c = false ∧ c ≠ '(' ∧ c ≠ ')' := by
    intro c hc
    rcases List.mem_append.1 hc with h | h
    · have := isPlain_spec c (hb c h)
      exact ⟨this.1, this.2.2.1, this.2.2.2⟩
    · rcases List.mem_singleton.1 h with rfl
      exact ⟨by decide, by decide, by decide⟩
  have hbqhead : b ++ ['"'] = [] ∨ pySpace ((b ++ ['"']).headD ' ') = false := by
    right
    cases b with
    | nil => decide
    | cons c cs =>
      simp only [List.cons_append, List.headD_cons]
      exact (isPlain_spec c (hb c (List.mem_cons_self c cs))).1
  have hcol1 : collapseWs (('"' :: a) ++ (w ++ (b ++ ['"'])))
      = ('"' :: a) ++ (' ' :: (b ++ ['"'])) := by
    rw [collapseWs_plain ('"' :: a) (fun c hc => (hqa c hc).1),
      collapseWs_run w (b ++ ['"']) hw0 hw hbqhead,
      collapseWs_plain_all (b ++ ['"']) (fun c hc => (hbq c hc).1)]
  have hstrip1 : stripComments (('"' :: a) ++ (w ++ (b ++ ['"'])))
      = ('"' :: a) ++ (w ++ (b ++ ['"'])) := by
    refine stripComments_id _ ?_
    intro c hc
    rcases List.mem_append.1 hc with h | h
    · rcases List.mem_cons.1 h with h | h
      · subst h; decide
      · exact (isPlain_spec c (ha c h)).2.1
    · rcases List.mem_append.1 h with h | h
      · exact (pySpace_ne c (hw c h)).1
      · rcases List.mem_append.1 h with h | h
        · exact (isPlain_spec c (hb c h)).2.1
        · rcases List.mem_singleton.1 h with rfl; decide
  have hc1 : normalise ('"' :: a ++ w ++ b ++ ['"'])
      = '"' :: a ++ ' ' :: b ++ ['"'] := by
    have hmine : normalise (('"' :: a) ++ (w ++ (b ++ ['"'])))
        = ('"' :: a) ++ (' ' :: (b ++ ['"'])) := by
      unfold normalise
      rw [hstrip1, hcol1]
      exact rbs_id _ (by
        intro c hc
        rcases List.mem_append.1 hc with h | h
        · exact (hqa c h).2
        · rcases List.mem_cons.1 h with h | h
          · subst h; exact ⟨by decide, by decide⟩
          · exact (hbq c h).2)
    simpa [List.append_assoc] using hmine
  refine ⟨hc1, ?_, ?_⟩
  · -- bracket-adjacent whitespace inside the literal
    have hmine2 : normalise (('"' :: a) ++ (w ++ ('(' :: (w2 ++ (b ++ ['"'])))))
        = ('"' :: a) ++ ('(' :: (b ++ ['"'])) := by
      unfold normalise
      rw [stripComments_id _ (by
        intro c hc
        rcases List.mem_append.1 hc with h | h
        · rcases List.mem_cons.1 h with h | h
          · subst h; decide
          · exact (isPlain_spec c (ha c h)).2.1
        · rcases List.mem_append.1 h with h | h
          · exact (pySpace_ne c (hw c h)).1
          · rcases List.mem_cons.1 h with h | h
            · subst h; decide
            · rcases List.mem_append.1 h with h | h
              · exact (pySpace_ne c (hw2 c h)).1
              · rcases List.mem_append.1 h with h | h
                · exact (isPlain_spec c (hb c h)).2.1
                · rcases List.mem_singleton.1 h with rfl; decide)]
      rw [collapseWs_plain ('"' :: a) (fun c hc => (hqa c hc).1),
        collapseWs_run w ('(' :: (w2 ++ (b ++ ['"']))) hw0 hw
          (Or.inr (by simp [pySpace])),
        show ('(' :: (w2 ++ (b ++ ['"']))) = ['('] ++ (w2 ++ (b ++ ['"'])) from rfl,
        collapseWs_plain ['(']
          (by intro c hc; rcases List.mem_singleton.1 hc with rfl; decide),
        collapseWs_run w2 (b ++ ['"']) hw20 hw2 hbqhead,
        collapseWs_plain_all (b ++ ['"']) (fun c hc => (hbq c hc).1)]
      rw [rbs_plain_front ('"' :: a) (fun c hc => ⟨(hqa c hc).1, (hqa c hc).2⟩)]
      rw [rbs_space_bracket ' ' (['('] ++ (' ' :: (b ++ ['"']))) '('
        (' ' :: (b ++ ['"'])) (by decide) (by
          rw [dropWhile_head_false pySpace _ (Or.inr (by simp [pySpace]))]
          rfl) (Or.inl rfl)]
      rw [show (' ' :: (b ++ ['"'])).dropWhile pySpace
          = (b ++ ['"']).dropWhile pySpace from by
        rw [List.dropWhile_cons_of_pos (by decide)]]
      rw [dropWhile_head_false pySpace (b ++ ['"']) hbqhead]
      rw [rbs_id (b ++ ['"']) (fun c hc => (hbq c hc).2)]
    simpa [List.append_assoc] using hmine2
  · -- a collapsed run is observably different from the source text
    intro hwne heq
    rw [hc1] at heq
    have heq2 : ('"' :: a) ++ ((' ' :: b) ++ ['"'])
        = ('"' :: a) ++ (w ++ (b ++ ['"'])) := by
      simpa [List.append_assoc] using heq
    have heq3 : (' ' :: b) ++ ['"'] = w ++ (b ++ ['"']) :=
      List.append_cancel_left heq2
    have heq4 : [' '] ++ (b ++ ['"']) = w ++ (b ++ ['"']) := by
      simpa using heq3
    exact hwne (List.append_cancel_right heq4).symm

/-- Witness for C10: the source text `"a  b"` normalises to `"a b"` —
the literal's two-space run became one space, so the program observes a
different string value than was written. -/
theorem C10_normalise_inside_string_literals_witness :
    normalise ('"' :: ['a'] ++ [' ', ' '] ++ ['b'] ++ ['"'])
      = '"' :: ['a'] ++ ' ' :: ['b'] ++ ['"'] ∧
    normalise ('"' :: ['a'] ++ [' ', ' '] ++ ['b'] ++ ['"'])
      ≠ '"' :: ['a'] ++ [' ', ' '] ++ ['b'] ++ ['"'] := by
  have h := C10_normalise_inside_string_literals ['a'] ['b'] [' ', ' '] [' ']
    (by decide) (by decide) (by decide) (by decide) (by decide) (by decide)
  exact ⟨h.1, h.2.2 (by decide)⟩

theorem getD_headD_drop (src : List Char) (idx : Nat) (d : Char) :
    src.getD idx d = (src.drop idx).headD d := by
  rw [List.getD_eq_getElem?_getD, List.headD_eq_head?_getD, List.head?_drop]

theorem isTokChar_spec (c : Char) (h : isTokChar c = true) :
    c ≠ '(' ∧ c ≠ ')' ∧ c ≠ '"' ∧ pySpace c = false ∧ symPred c = true := by
  simp [isTokChar] at h
  exact ⟨h.1.1.1, h.1.1.2, h.1.2, h.2,
    by simp [symPred, h.1.1.1, h.1.1.2, h.2]⟩

theorem takeWhile_append_all (p : Char → Bool) (w ys : List Char)
    (h : ∀ c ∈ w, p c = true) :
    (w ++ ys).takeWhile p = w ++ ys.takeWhile p := by
  induction w with
  | nil => rfl
  | cons c cs ih =>
    rw [List.cons_append, List.takeWhile_cons]
    simp only [h c (List.mem_cons_self c cs), if_true]
    rw [ih (fun d hd => h d (List.mem_cons_of_mem c hd)), List.cons_append]

theorem takeWhile_head_false (p : Char → Bool) (ys : List Char)
    (h : ys = [] ∨ p (ys.headD ' ') = false) : ys.takeWhile p = [] := by
  cases ys with
  | nil => rfl
  | cons d ds =>
    rcases h with h | h
    · exact absurd h (by simp)
    · simp only [List.headD_cons] at h
      rw [List.takeWhile_cons]
      simp [h]

theorem pcLoop_unterminated (src : List Char) :
    ∀ (n : Nat) (rest : List Char), rest.length = n →
    ∀ (fuel idx : Nat) (p : PTok) (ps : List PTok),
      src.drop idx = rest →
      (∀ c ∈ rest, pySpace c = true ∨ isTokChar c = true) →
      rest.length + 1 ≤ fuel →
      pcLoop fuel src idx (p :: ps)
        = Except.error ("Unterminated call to function \"" ++ tokStr p ++ "\"") := by
  intro n
  induction n using Nat.strong_induction_on with
  | _ n ih =>
    intro rest hlen fuel idx p ps hdrop hchars hfuel
    have hlendrop : src.length - idx = rest.length := by
      have := congrArg List.length hdrop
      rwa [List.length_drop] at this
    cases rest with
    | nil =>
      have hidx : ¬ idx < src.length := by
        simp at hlendrop
        omega
      cases fuel with
      | zero => omega
      | succ f =>
        rw [pcLoop, if_neg hidx]
    | cons c rest2 =>
      have hidxlt : idx < src.length := by
        simp at hlendrop
        omega
      have hc : src.getD idx '\x00' = c := by
        rw [getD_headD_drop, hdrop]
        rfl
      have hdrop1 : src.drop (idx + 1) = rest2 := by
        rw [← List.tail_drop, hdrop]
        rfl
      cases fuel with
      | zero => simp at hfuel
      | succ f =>
        rcases hchars c (List.mem_cons_self c rest2) with hsp | htc
        · have hne := pySpace_ne c hsp
          rw [pcLoop, if_pos hidxlt, hc, if_neg hne.2.1, if_neg hne.2.2,
            if_pos hsp]
          exact ih rest2.length (by simp only [List.length_cons] at hlen; omega)
            rest2 rfl f (idx + 1) p ps hdrop1
            (fun d hd => hchars d (List.mem_cons_of_mem c hd))
            (by simp only [List.length_cons] at hfuel; omega)
        · have hts := isTokChar_spec c htc
          have hgs : get_symbol src idx
              = (⟨(c :: rest2).takeWhile symPred⟩,
                  idx + ((c :: rest2).takeWhile symPred).length) := by
            unfold get_symbol
            rw [hc, if_neg hts.2.2.1, hdrop]
          rw [pcLoop, if_pos hidxlt, hc, if_neg hts.1, if_neg hts.2.1,
            if_neg (by simp [hts.2.2.2.1]), hgs]
          have hbody : (c :: rest2).takeWhile symPred
              = c :: rest2.takeWhile symPred := by
            rw [List.takeWhile_cons]
            simp [hts.2.2.2.2]
          have hdrop2 : src.drop (idx + ((c :: rest2).takeWhile symPred).length)
              = rest2.dropWhile symPred := by
            have h5 : src.drop (idx + ((c :: rest2).takeWhile symPred).length)
                = (src.drop idx).drop ((c :: rest2).takeWhile symPred).length := by
              rw [List.drop_drop, Nat.add_comm]
            rw [h5, hdrop]
            have h6 : (c :: rest2).drop ((c :: rest2).takeWhile symPred).length
                = (c :: rest2).dropWhile symPred := by
              have h7 := List.drop_left ((c :: rest2).takeWhile symPred)
                ((c :: rest2).dropWhile symPred)
              rwa [List.takeWhile_append_dropWhile] at h7
            rw [h6, List.dropWhile_cons_of_pos hts.2.2.2.2]
          have hmem2 : ∀ d ∈ rest2.dropWhile symPred,
              pySpace d = true ∨ isTokChar d = true := by
            intro d hd
            have : d ∈ rest2 := (List.dropWhile_sublist symPred).subset hd
            exact hchars d (List.mem_cons_of_mem c this)
          have hlen2 : (rest2.dropWhile symPred).length < n := by
            have := dropWhile_length_le symPred rest2
            simp at hlen
            omega
          rw [List.cons_append]
          exact ih (rest2.dropWhile symPred).length hlen2 (rest2.dropWhile symPred)
            rfl f (idx + ((c :: rest2).takeWhile symPred).length) p
            (ps ++ [PTok.sym ⟨(c :: rest2).takeWhile symPred⟩]) hdrop2 hmem2
            (by
              have := dropWhile_length_le symPred rest2
              simp at hlen hfuel
              omega)

/-- C9: for a source text that opens a call with a selector token and
never closes it — the rest of the text holding only further tokens and
whitespace — parsing fails with the parse error naming the function
being called (the call's selector), rather than returning a partial
AST or succeeding. -/
theorem C9_unterminated_call_names_selector (tok tail : List Char)
    (htok0 : tok ≠ []) (htok : ∀ c ∈ tok, isTokChar c = true)
    (htail : ∀ c ∈ tail, pySpace c = true ∨ isTokChar c = true)
    (hb : tail = [] ∨ pySpace (tail.headD ' ') = true) :
    process_call ('(' :: (tok ++ tail)) 0
      = Except.error ("Unterminated call to function \""
          ++ String.mk tok ++ "\"") := by
  cases tok with
  | nil => exact absurd rfl htok0
  | cons c0 tok2 =>
  have hc0 := isTokChar_spec c0 (htok c0 (List.mem_cons_self c0 tok2))
  unfold process_call
  rw [if_pos (by simp)]
  have hfe : 2 * ('(' :: ((c0 :: tok2) ++ tail)).length + 2
      = (2 * ('(' :: ((c0 :: tok2) ++ tail)).length + 1) + 1 := rfl
  rw [hfe, pcLoop]
  rw [if_pos (by simp)]
  have hget1 : ('(' :: ((c0 :: tok2) ++ tail)).getD 1 '\x00' = c0 := by simp
  rw [hget1, if_neg hc0.1, if_neg hc0.2.1, if_neg (by simp [hc0.2.2.2.1])]
  have hgs : get_symbol ('(' :: ((c0 :: tok2) ++ tail)) 1
      = (String.mk (c0 :: tok2), 1 + (c0 :: tok2).length) := by
    unfold get_symbol
    rw [hget1, if_neg hc0.2.2.1]
    have hdrop1 : ('(' :: ((c0 :: tok2) ++ tail)).drop 1 = (c0 :: tok2) ++ tail := rfl
    rw [hdrop1, takeWhile_append_all symPred (c0 :: tok2) tail
      (fun d hd => (isTokChar_spec d (htok d hd)).2.2.2.2),
      takeWhile_head_false symPred tail (by
        rcases hb with h | h
        · exact Or.inl h
        · right
          have h2 : pySpace (tail.head?.getD ' ') = true := by
            rwa [List.headD_eq_head?_getD] at h
          simp [symPred, h2]),
      List.append_nil]
  rw [hgs]
  have happ : ([] : List PTok) ++ [PTok.sym (String.mk (c0 :: tok2))]
      = PTok.sym (String.mk (c0 :: tok2)) :: [] := rfl
  rw [happ]
  have hdropT : ('(' :: ((c0 :: tok2) ++ tail)).drop (1 + (c0 :: tok2).length)
      = tail := by
    have h1 : ('(' :: ((c0 :: tok2) ++ tail)).drop (1 + (c0 :: tok2).length)
        = (('(' :: ((c0 :: tok2) ++ tail)).drop 1).drop (c0 :: tok2).length := by
      rw [List.drop_drop, Nat.add_comm]
    rw [h1]
    exact List.drop_left (c0 :: tok2) tail
  rw [pcLoop_unterminated ('(' :: ((c0 :: tok2) ++ tail)) tail.length tail rfl
    (2 * ('(' :: ((c0 :: tok2) ++ tail)).length + 1) (1 + (c0 :: tok2).length)
    (PTok.sym (String.mk (c0 :: tok2))) [] hdropT htail (by simp; omega)]
  rw [show tokStr (PTok.sym (String.mk (c0 :: tok2)))
    = String.mk (c0 :: tok2) from by rw [tokStr]]

/-- Witness for C9: `process_call` on the source `(+ 1 2` fails with
the parse error naming `+`. -/
theorem C9_unterminated_call_names_selector_witness :
    process_call ("(+ 1 2".data) 0
      = Except.error "Unterminated call to function \"+\"" := by
  have h := C9_unterminated_call_names_selector ['+'] [' ', '1', ' ', '2']
    (by decide) (by decide) (by decide) (Or.inr (by decide))
  have he : ('(' :: (['+'] ++ [' ', '1', ' ', '2'])) = "(+ 1 2".data := by decide
  rw [he] at h
  rw [h]
  rfl
